import Mathlib

/-!
Verification of the file-deduplicator core (src/main.rs) against its
specification.

Modelling conventions of the shallow embedding:
* A file's byte content is a `List Nat` (each element one byte); the size
  reported by `fs::metadata` is the content's length (files are assumed
  unchanged between the metadata read and hashing, as the spec requires).
* The xxh3 hasher from the external `xxhash_rust` crate is modelled by its
  streaming contract: feeding updates `u1, u2, ...` and taking the digest
  equals applying a fixed pure function `digest` to the concatenation
  `u1 ++ u2 ++ ...`.  The crate is outside the repository, so `digest` is a
  parameter of the development; every theorem holds for an arbitrary digest
  function, and witnesses instantiate it with a concrete one.
* Fallible operations return `Except Unit`; environmental per-file I/O
  failures (permission denied, file vanished, unreadable directory) that
  depend on the machine rather than on the bytes are modelled by Boolean
  failure flags carried by the filesystem model.
-/

/-- Little-endian byte encoding of a 64-bit value, as in u64::to_le_bytes. -/
def toLeBytes8 (n : Nat) : List Nat :=
  [n % 256, n / 256 % 256, n / 256 ^ 2 % 256, n / 256 ^ 3 % 256,
   n / 256 ^ 4 % 256, n / 256 ^ 5 % 256, n / 256 ^ 6 % 256, n / 256 ^ 7 % 256]

/-- SAMPLE_SIZE from main.rs: 64 KiB. -/
def SAMPLE_SIZE : Nat := 65536

/-- LARGE_FILE_THRESHOLD from main.rs: 1 MiB. -/
def LARGE_FILE_THRESHOLD : Nat := 1048576

/-- The small-file read loop of hash_file: repeatedly read up to 16384 bytes
and feed them to the hasher until end of stream.  Returns the concatenation
of all chunks fed to the hasher. -/
def readChunks (c : List Nat) : List Nat :=
  if c = [] then []
  else c.take 16384 ++ readChunks (c.drop 16384)
termination_by c.length
decreasing_by
  simp [List.length_drop]
  rename_i h
  have : 0 < c.length := List.length_pos.mpr h
  omega

/-- The seek offset used in the large-file branch of hash_file:
SeekFrom::End(-(SAMPLE_SIZE as i64).min(size as i64)), which by Rust
precedence is the negation of min(SAMPLE_SIZE, size). -/
def seekOffset (size : Nat) : Int :=
  -(min (SAMPLE_SIZE : Int) (size : Int))

/-- Shallow embedding of hash_file from main.rs.  Takes the digest function
of the external xxh3 hasher and the file's content; returns the fingerprint
(little-endian bytes of the 64-bit digest) or an error.
Small branch: the whole content is read in 16 KiB chunks and hashed.
Large branch: read_exact of the first SAMPLE_SIZE bytes (error if the file
is shorter), seek to SeekFrom::End(seekOffset size) (error if the resulting
position is negative), read_exact of SAMPLE_SIZE tail bytes (error if fewer
remain), then the 8 little-endian size bytes are hashed as well. -/
def hash_file (digest : List Nat → Nat) (c : List Nat) : Except Unit (List Nat) :=
  let size := c.length
  if size ≤ LARGE_FILE_THRESHOLD then
    .ok (toLeBytes8 (digest (readChunks c)))
  else
    if SAMPLE_SIZE ≤ c.length then
      let head := c.take SAMPLE_SIZE
      let pos : Int := (size : Int) + seekOffset size
      if pos < 0 then .error ()
      else
        let rest := c.drop pos.toNat
        if rest.length < SAMPLE_SIZE then .error ()
        else
          let tail := rest.take SAMPLE_SIZE
          .ok (toLeBytes8 (digest (head ++ tail ++ toLeBytes8 size)))
    else .error ()

theorem readChunks_eq (c : List Nat) : readChunks c = c := by
  rw [readChunks]
  split
  · simp_all
  · rename_i h
    have : 0 < c.length := List.length_pos.mpr h
    have ih : readChunks (c.drop 16384) = c.drop 16384 := readChunks_eq (c.drop 16384)
    rw [ih, List.take_append_drop]
termination_by c.length
decreasing_by
  simp [List.length_drop]
  omega

/-- In the small branch, the fingerprint is the digest of the whole content. -/
theorem hash_file_small (digest : List Nat → Nat) (c : List Nat)
    (h : c.length ≤ LARGE_FILE_THRESHOLD) :
    hash_file digest c = .ok (toLeBytes8 (digest c)) := by
  simp [hash_file, h, readChunks_eq]

/-- In the large branch, the seek offset is exactly -SAMPLE_SIZE. -/
theorem seekOffset_large (size : Nat) (h : LARGE_FILE_THRESHOLD < size) :
    seekOffset size = -(SAMPLE_SIZE : Int) := by
  unfold seekOffset
  congr 1
  apply min_eq_left
  have hle : SAMPLE_SIZE ≤ size := by
    simp only [SAMPLE_SIZE, LARGE_FILE_THRESHOLD] at h ⊢; omega
  exact_mod_cast hle

/-- In the large branch, the fingerprint is the digest of head, tail and
size bytes, and no error branch is taken. -/
theorem hash_file_large (digest : List Nat → Nat) (c : List Nat)
    (h : LARGE_FILE_THRESHOLD < c.length) :
    hash_file digest c =
      .ok (toLeBytes8 (digest (c.take SAMPLE_SIZE ++
        c.drop (c.length - SAMPLE_SIZE) ++ toLeBytes8 c.length))) := by
  have hs : SAMPLE_SIZE ≤ c.length := by
    simp only [SAMPLE_SIZE, LARGE_FILE_THRESHOLD] at h ⊢; omega
  have hoff : seekOffset c.length = -(SAMPLE_SIZE : Int) := seekOffset_large _ h
  have hpos : (c.length : Int) + seekOffset c.length = ((c.length - SAMPLE_SIZE : Nat) : Int) := by
    rw [hoff]; omega
  have hnotlt : ¬ ((c.length : Int) + seekOffset c.length < 0) := by
    rw [hpos]; omega
  have hlen : (c.drop (c.length - SAMPLE_SIZE)).length = SAMPLE_SIZE := by
    rw [List.length_drop]; omega
  have htoNat : ((c.length : Int) + seekOffset c.length).toNat = c.length - SAMPLE_SIZE := by
    rw [hpos]; omega
  rw [hash_file]
  rw [if_neg (by omega : ¬ (c.length ≤ LARGE_FILE_THRESHOLD))]
  rw [if_pos hs]
  rw [if_neg hnotlt]
  rw [htoNat]
  rw [if_neg (by rw [hlen]; omega : ¬ ((c.drop (c.length - SAMPLE_SIZE)).length < SAMPLE_SIZE))]
  rw [List.take_of_length_le (le_of_eq hlen)]

/-! Claim theorems about the Content Fingerprinter. -/

/-- C1: for every file larger than 1 MiB, the fingerprint hashes exactly the
first 64 KiB, the last 64 KiB and the 8-byte little-endian size, in this
order; hence two such files with identical head, tail and size have equal
fingerprints regardless of interior bytes. -/
theorem claim_C1 (digest : List Nat → Nat) (c1 c2 : List Nat)
    (h1 : LARGE_FILE_THRESHOLD < c1.length) (h2 : LARGE_FILE_THRESHOLD < c2.length)
    (hhead : c1.take SAMPLE_SIZE = c2.take SAMPLE_SIZE)
    (htail : c1.drop (c1.length - SAMPLE_SIZE) = c2.drop (c2.length - SAMPLE_SIZE))
    (hsize : c1.length = c2.length) :
    hash_file digest c1 =
      .ok (toLeBytes8 (digest (c1.take SAMPLE_SIZE ++
        c1.drop (c1.length - SAMPLE_SIZE) ++ toLeBytes8 c1.length)))
    ∧ hash_file digest c1 = hash_file digest c2 := by
  refine ⟨hash_file_large digest c1 h1, ?_⟩
  rw [hash_file_large digest c1 h1, hash_file_large digest c2 h2, hhead, htail, hsize]

/-- A concrete digest function used only to instantiate witnesses. -/
def digest0 : List Nat → Nat :=
  fun l => l.foldl (fun a b => (a * 257 + b) % 18446744073709551616) 0

/-- A 1 MiB + 1 byte file of zeros. -/
def fileA : List Nat := List.replicate 1048577 0

/-- A file with the same head, tail and size as fileA but interior nines. -/
def fileB : List Nat :=
  (List.replicate 65536 0 ++ List.replicate 917505 9) ++ List.replicate 65536 0

theorem claim_C1_witness : hash_file digest0 fileA = hash_file digest0 fileB := by
  have hlenA : fileA.length = 1048577 := by
    rw [fileA, List.length_replicate]
  have hlenAB : (List.replicate 65536 (0 : Nat) ++ List.replicate 917505 9).length = 983041 := by
    rw [List.length_append, List.length_replicate, List.length_replicate]
  have hlenB : fileB.length = 1048577 := by
    rw [fileB, List.length_append, hlenAB, List.length_replicate]
  refine (claim_C1 digest0 fileA fileB ?_ ?_ ?_ ?_ ?_).2
  · rw [hlenA]; norm_num [LARGE_FILE_THRESHOLD]
  · rw [hlenB]; norm_num [LARGE_FILE_THRESHOLD]
  · rw [fileA, fileB, SAMPLE_SIZE]
    rw [List.take_append_of_le_length (by rw [hlenAB]; norm_num)]
    rw [List.take_append_of_le_length (by rw [List.length_replicate])]
    rw [List.take_replicate, List.take_replicate]
    norm_num
  · rw [hlenA, hlenB, fileA, fileB, SAMPLE_SIZE]
    have hsub : (1048577 : Nat) - 65536 = 983041 := by norm_num
    rw [hsub, List.drop_left' hlenAB, List.drop_replicate]
  · rw [hlenA, hlenB]

/-- C2: for every file of size at most 1 MiB the fingerprint is the hash of
the entire content, so byte-identical small files fingerprint equally. -/
theorem claim_C2 (digest : List Nat → Nat) (c1 c2 : List Nat)
    (h1 : c1.length ≤ LARGE_FILE_THRESHOLD) (h2 : c2.length ≤ LARGE_FILE_THRESHOLD) :
    hash_file digest c1 = .ok (toLeBytes8 (digest c1))
    ∧ (c1 = c2 → hash_file digest c1 = hash_file digest c2) := by
  exact ⟨hash_file_small digest c1 h1, fun hEq => by rw [hEq]⟩

/-- A 2000-byte file of sevens. -/
def fileC : List Nat := List.replicate 2000 7

theorem claim_C2_witness : hash_file digest0 fileC = .ok (toLeBytes8 (digest0 fileC)) := by
  refine (claim_C2 digest0 fileC fileC ?_ ?_).1 <;>
    rw [fileC, List.length_replicate] <;> norm_num [LARGE_FILE_THRESHOLD]

/-- C9: in the large branch the seek offset is the negation of
min(SAMPLE_SIZE, size); above the threshold it is exactly -65536, the
resulting position from end of file is nonnegative, and both read_exact
calls succeed, so hash_file returns ok. -/
theorem claim_C9 (digest : List Nat → Nat) (c : List Nat)
    (h : LARGE_FILE_THRESHOLD < c.length) :
    seekOffset c.length = -(min (SAMPLE_SIZE : Int) (c.length : Int))
    ∧ seekOffset c.length = -(65536 : Int)
    ∧ 0 ≤ (c.length : Int) + seekOffset c.length
    ∧ hash_file digest c = .ok (toLeBytes8 (digest (c.take SAMPLE_SIZE ++
        c.drop (c.length - SAMPLE_SIZE) ++ toLeBytes8 c.length))) := by
  have hoff : seekOffset c.length = -(SAMPLE_SIZE : Int) := seekOffset_large _ h
  refine ⟨rfl, ?_, ?_, hash_file_large digest c h⟩
  · rw [hoff]; norm_num [SAMPLE_SIZE]
  · rw [hoff]
    have hs : SAMPLE_SIZE ≤ c.length := by
      simp only [SAMPLE_SIZE, LARGE_FILE_THRESHOLD] at h ⊢; omega
    omega

theorem claim_C9_witness : seekOffset fileA.length = -(65536 : Int) := by
  have hlenA : fileA.length = 1048577 := by rw [fileA, List.length_replicate]
  refine (claim_C9 digest0 fileA ?_).2.1
  rw [hlenA]; norm_num [LARGE_FILE_THRESHOLD]

/-! Group Aggregator (scan_directory lines 132-162).

Paths are modelled as natural numbers; a Fingerprint is the byte list
produced by hash_file.  The rayon HashMap is modelled extensionally as the
function from fingerprints to the accumulated path sequence (HashMap
iteration order is unspecified, so the extensional view is the faithful
one).  The worker-local fold step `acc.entry(hash).or_insert_with(Vec::new)
.push(path)` appends one path to the group of its fingerprint; the reduce
step extends each group of the accumulator with the corresponding group of
the other partial index, which is pointwise concatenation. -/

/-- A fingerprint: the byte vector produced by hash_file. -/
abbrev Fingerprint := List Nat

/-- A file path (PathBuf in the source), abstracted to a number. -/
abbrev PathB := Nat

/-- The fingerprint-to-paths mapping held by the HashMap. -/
abbrev GroupIndex := Fingerprint → List PathB

/-- The empty index, HashMap::new(). -/
def emptyIndex : GroupIndex := fun _ => []

/-- One fold step: push the path onto the group of its fingerprint. -/
def addPair (acc : GroupIndex) (pr : Fingerprint × PathB) : GroupIndex :=
  fun f => if f = pr.1 then acc f ++ [pr.2] else acc f

/-- A worker-local partial index built by folding a batch of pairs. -/
def buildIndex (pairs : List (Fingerprint × PathB)) : GroupIndex :=
  pairs.foldl addPair emptyIndex

/-- The reduce step: extend each group of the first index with the paths of
the same fingerprint in the second index (pointwise concatenation). -/
def mergeIdx (a b : GroupIndex) : GroupIndex :=
  fun f => a f ++ b f

/-- A shape in which partial indexes are merged: leaves carry worker
batches, inner nodes are reduce steps.  Any order and grouping of merges is
one such tree. -/
inductive MergeTree where
  | leaf (batch : List (Fingerprint × PathB))
  | node (l r : MergeTree)

/-- Evaluate a merge tree: fold each batch, then merge bottom-up. -/
def MergeTree.eval : MergeTree → GroupIndex
  | .leaf b => buildIndex b
  | .node l r => mergeIdx l.eval r.eval

/-- All pairs carried by the tree, in left-to-right order. -/
def MergeTree.batches : MergeTree → List (Fingerprint × PathB)
  | .leaf b => b
  | .node l r => l.batches ++ r.batches

theorem foldl_addPair (pairs : List (Fingerprint × PathB)) (acc : GroupIndex)
    (f : Fingerprint) :
    (pairs.foldl addPair acc) f
      = acc f ++ (pairs.filter (fun pr => pr.1 = f)).map Prod.snd := by
  induction pairs generalizing acc with
  | nil => simp
  | cons pr rest ih =>
    rw [List.foldl_cons, ih, List.filter_cons]
    by_cases hf : pr.1 = f
    · rw [if_pos (by simpa using hf)]
      simp [addPair, hf, List.append_assoc]
    · rw [if_neg (by simpa using hf)]
      have hfs : ¬ f = pr.1 := fun hEq => hf hEq.symm
      simp [addPair, hfs]

theorem buildIndex_eq (pairs : List (Fingerprint × PathB)) (f : Fingerprint) :
    buildIndex pairs f = (pairs.filter (fun pr => pr.1 = f)).map Prod.snd := by
  rw [buildIndex, foldl_addPair]
  rfl

/-- Evaluating any merge tree gives, at each fingerprint, the paths of that
fingerprint's pairs across all batches in tree order. -/
theorem MergeTree.eval_eq (t : MergeTree) (f : Fingerprint) :
    t.eval f = (t.batches.filter (fun pr => pr.1 = f)).map Prod.snd := by
  induction t with
  | leaf b => exact buildIndex_eq b f
  | node l r ihl ihr =>
    rw [eval, mergeIdx, ihl, ihr, batches, List.filter_append, List.map_append]

/-- C3: aggregation is associative and commutative: for any partition of
the fingerprinted pairs into batches, folding each batch and merging the
partial indexes in any order and grouping yields the same final mapping
from fingerprint to the set (indeed multiset) of contributing paths. -/
theorem claim_C3 (t1 t2 : MergeTree) (pairs : List (Fingerprint × PathB))
    (h1 : t1.batches.Perm pairs) (h2 : t2.batches.Perm pairs) (f : Fingerprint) :
    Multiset.ofList (t1.eval f) = Multiset.ofList (t2.eval f)
    ∧ (∀ p, p ∈ t1.eval f ↔ p ∈ t2.eval f) := by
  have hperm : (t1.eval f).Perm (t2.eval f) := by
    rw [MergeTree.eval_eq, MergeTree.eval_eq]
    exact ((h1.trans h2.symm).filter _).map _
  exact ⟨Multiset.coe_eq_coe.mpr hperm, fun p => hperm.mem_iff⟩

/-- Three fingerprinted pairs used by the C3 witness. -/
def pairsEx : List (Fingerprint × PathB) := [([1], 10), ([1], 11), ([2], 12)]

/-- A merge shape splitting pairsEx as one-then-two. -/
def tEx1 : MergeTree := .node (.leaf [([1], 10)]) (.leaf [([1], 11), ([2], 12)])

/-- A different merge shape and batch order over the same pairs. -/
def tEx2 : MergeTree := .node (.leaf [([2], 12), ([1], 11)]) (.leaf [([1], 10)])

theorem claim_C3_witness :
    Multiset.ofList (tEx1.eval [1]) = Multiset.ofList (tEx2.eval [1]) :=
  (claim_C3 tEx1 tEx2 pairsEx (by decide) (by decide) [1]).1

/-- C5: in a completed index every successfully fingerprinted path appears
exactly once, in the group of its own fingerprint, and merging two partial
indexes concatenates the path sequences of a shared fingerprint. -/
theorem claim_C5 (t : MergeTree) (pairs : List (Fingerprint × PathB))
    (hperm : t.batches.Perm pairs)
    (hnd : (pairs.map Prod.snd).Nodup)
    (h : Fingerprint) (p : PathB) (hmem : (h, p) ∈ pairs) :
    p ∈ t.eval h
    ∧ (∀ h2, p ∈ t.eval h2 → h2 = h)
    ∧ (t.eval h).count p = 1
    ∧ (∀ a b f, mergeIdx a b f = a f ++ b f) := by
  have evalp : ∀ f : Fingerprint,
      (t.eval f).Perm ((pairs.filter (fun pr => pr.1 = f)).map Prod.snd) := by
    intro f
    rw [MergeTree.eval_eq]
    exact (hperm.filter _).map _
  have hmem1 : p ∈ (pairs.filter (fun pr => pr.1 = h)).map Prod.snd := by
    refine List.mem_map.mpr ⟨(h, p), ?_, rfl⟩
    exact List.mem_filter.mpr ⟨hmem, by simp⟩
  refine ⟨(evalp h).mem_iff.mpr hmem1, ?_, ?_, fun a b f => rfl⟩
  · intro h2 hp
    have hmem2 : p ∈ (pairs.filter (fun pr => pr.1 = h2)).map Prod.snd :=
      (evalp h2).mem_iff.mp hp
    obtain ⟨pr, hprf, hprp⟩ := List.mem_map.mp hmem2
    have hprl : pr ∈ pairs := (List.mem_filter.mp hprf).1
    have hpr1 : pr.1 = h2 := by
      have := (List.mem_filter.mp hprf).2
      simpa using this
    have hpr : pr = (h, p) :=
      List.inj_on_of_nodup_map hnd hprl hmem (by simpa using hprp)
    rw [← hpr1, hpr]
  · rw [(evalp h).count_eq]
    have hsub : ((pairs.filter (fun pr => pr.1 = h)).map Prod.snd).Sublist
        (pairs.map Prod.snd) := (List.filter_sublist pairs).map _
    exact List.count_eq_one_of_mem (hsub.nodup hnd) hmem1

/-- Two fingerprinted pairs used by the C5 witness. -/
def pairsEx5 : List (Fingerprint × PathB) := [([5], 20), ([6], 21)]

/-- A merge shape over pairsEx5. -/
def tEx5 : MergeTree := .node (.leaf [([6], 21)]) (.leaf [([5], 20)])

theorem claim_C5_witness :
    (20 : PathB) ∈ tEx5.eval [5] ∧ (tEx5.eval [5]).count 20 = 1 := by
  have hc := claim_C5 tEx5 pairsEx5 (by decide) (by decide) [5] 20 (by decide)
  exact ⟨hc.1, hc.2.2.1⟩

/-! Tree Walker and pipeline (scan_directory lines 105-166).

The filesystem is a tree of nodes: regular files (with content, a flag for
a metadata failure during the walk, and a flag for an open/read failure
during fingerprinting), directories (with entries and a flag for a read_dir
failure), and special nodes (neither file nor directory, skipped by the
walk).  The source walks with an explicit Vec used as a stack; the head of
the Lean list models the top of that stack (the end of the Vec). -/

/-- A regular file reference collected by the walk: path, content, and a
flag telling whether open or read fails during fingerprinting. -/
structure FileRef where
  path : PathB
  content : List Nat
  hashFail : Bool
deriving DecidableEq

/-- A node of the filesystem tree. -/
inductive FSNode where
  | file (path : PathB) (content : List Nat) (metaFail : Bool) (hashFail : Bool)
  | dir (entries : List FSNode) (readFail : Bool)
  | special

/-- Is the node a directory (path.is_dir())? -/
def FSNode.isDir : FSNode → Bool
  | .dir _ _ => true
  | _ => false

mutual

/-- Size of a node, for termination of the walk. -/
def FSNode.sizeN : FSNode → Nat
  | .file _ _ _ _ => 1
  | .special => 1
  | .dir es _ => 1 + sizeListN es

/-- Size of a list of nodes. -/
def sizeListN : List FSNode → Nat
  | [] => 0
  | e :: rest => FSNode.sizeN e + sizeListN rest

end

theorem sizeListN_append (a b : List FSNode) :
    sizeListN (a ++ b) = sizeListN a + sizeListN b := by
  induction a with
  | nil => simp [sizeListN]
  | cons e rest ih => simp [sizeListN, ih]; omega

/-- Process the entries of one popped directory, in order: a directory
entry is pushed onto the stack (head of the returned first component is
the next node to pop), a file entry has its metadata read (an error there
propagates) and is kept as a candidate when its size exceeds 1024 bytes,
and anything else is skipped. -/
def scanEntries : List FSNode → Except Unit (List FSNode × List FileRef)
  | [] => .ok ([], [])
  | .dir es rf :: rest =>
    (scanEntries rest).map (fun r => (r.1 ++ [.dir es rf], r.2))
  | .file p c mf hf :: rest =>
    if mf then .error ()
    else (scanEntries rest).map
      (fun r => (r.1, (if 1024 < c.length then [⟨p, c, hf⟩] else []) ++ r.2))
  | .special :: rest => scanEntries rest

theorem scanEntries_size (es : List FSNode) (r : List FSNode × List FileRef)
    (h : scanEntries es = .ok r) : sizeListN r.1 ≤ sizeListN es := by
  induction es generalizing r with
  | nil =>
    simp only [scanEntries] at h
    cases h
    simp [sizeListN]
  | cons e rest ih =>
    match e with
    | .dir es0 rf =>
      simp only [scanEntries] at h
      cases hsr : scanEntries rest with
      | error e0 => rw [hsr] at h; simp [Except.map] at h
      | ok r0 =>
        rw [hsr] at h
        simp only [Except.map] at h
        cases h
        have := ih r0 hsr
        rw [sizeListN_append]
        simp [sizeListN, FSNode.sizeN]
        omega
    | .file p c mf hf =>
      simp only [scanEntries] at h
      by_cases hmf : mf
      · rw [if_pos hmf] at h; cases h
      · rw [if_neg hmf] at h
        cases hsr : scanEntries rest with
        | error e0 => rw [hsr] at h; simp [Except.map] at h
        | ok r0 =>
          rw [hsr] at h
          simp only [Except.map] at h
          cases h
          have := ih r0 hsr
          simp [sizeListN, FSNode.sizeN]
          omega
    | .special =>
      simp only [scanEntries] at h
      have := ih r h
      simp [sizeListN, FSNode.sizeN]
      omega

/-- The walk loop of scan_directory: pop a node; popping a non-directory
root fails as read_dir does; a directory with a read failure aborts the
walk; otherwise its entries are processed and the collected candidate
files are accumulated. -/
def walkStack : List FSNode → Except Unit (List FileRef)
  | [] => .ok []
  | .file _ _ _ _ :: _ => .error ()
  | .special :: _ => .error ()
  | .dir es rf :: rest =>
    if rf then .error ()
    else
      match hse : scanEntries es with
      | .error e => .error e
      | .ok r =>
        match walkStack (r.1 ++ rest) with
        | .error e => .error e
        | .ok more => .ok (r.2 ++ more)
termination_by s => sizeListN s
decreasing_by
  rw [sizeListN_append]
  have hle := scanEntries_size es r hse
  simp [sizeListN, FSNode.sizeN]
  omega

/-- One fingerprinting attempt inside the parallel filter_map: an
environmental open/read failure (the hashFail flag) or an error from
hash_file yields none; success yields the fingerprint. -/
def tryHash (digest : List Nat → Nat) (fr : FileRef) : Option Fingerprint :=
  if fr.hashFail then none
  else
    match hash_file digest fr.content with
    | .ok fp => some fp
    | .error _ => none

/-- The parallel fingerprinting stage, with its observable effects
reified: returns the successful (fingerprint, path) pairs in file order,
the final value of the progress counter (incremented once per attempt,
success or failure), and the paths whose errors were printed. -/
def fingerprintAll (digest : List Nat → Nat) :
    List FileRef → List (Fingerprint × PathB) × Nat × List PathB
  | [] => ([], 0, [])
  | fr :: rest =>
    let r := fingerprintAll digest rest
    match tryHash digest fr with
    | some fp => ((fp, fr.path) :: r.1, r.2.1 + 1, r.2.2)
    | none => (r.1, r.2.1 + 1, fr.path :: r.2.2)

/-- Shallow embedding of scan_directory: walk the tree below the root,
fingerprint every candidate in parallel, and aggregate the pairs into the
index.  Returns the index together with the final progress-counter value
and the reported error paths; any walk error propagates. -/
def scan_directory (digest : List Nat → Nat) (root : FSNode) :
    Except Unit (GroupIndex × Nat × List PathB) :=
  match walkStack [root] with
  | .error e => .error e
  | .ok files =>
    let r := fingerprintAll digest files
    .ok (buildIndex r.1, r.2.1, r.2.2)

mutual

/-- All regular-file nodes in a subtree. -/
def FSNode.filesIn : FSNode → List FSNode
  | .file p c mf hf => [.file p c mf hf]
  | .special => []
  | .dir es _ => filesInList es

/-- All regular-file nodes under a list of subtrees. -/
def filesInList : List FSNode → List FSNode
  | [] => []
  | e :: rest => FSNode.filesIn e ++ filesInList rest

end

theorem mem_filesInList (x : FSNode) (l : List FSNode) :
    x ∈ filesInList l ↔ ∃ e ∈ l, x ∈ FSNode.filesIn e := by
  induction l with
  | nil => simp [filesInList]
  | cons e rest ih => simp [filesInList, ih]

theorem filesInList_append (a b : List FSNode) :
    filesInList (a ++ b) = filesInList a ++ filesInList b := by
  induction a with
  | nil => simp [filesInList]
  | cons e rest ih => simp [filesInList, ih]

theorem scanEntries_ok_char (es : List FSNode) (r : List FSNode × List FileRef)
    (h : scanEntries es = .ok r) :
    (∀ x, x ∈ r.1 ↔ (x ∈ es ∧ x.isDir = true))
    ∧ (∀ p c mf hf, FSNode.file p c mf hf ∈ es → mf = false)
    ∧ (∀ frp frc frh, (⟨frp, frc, frh⟩ : FileRef) ∈ r.2 ↔
        (FSNode.file frp frc false frh ∈ es ∧ 1024 < frc.length)) := by
  induction es generalizing r with
  | nil =>
    simp only [scanEntries] at h
    cases h
    simp
  | cons e rest ih =>
    match e with
    | .dir es0 rf =>
      simp only [scanEntries] at h
      cases hsr : scanEntries rest with
      | error e0 => rw [hsr] at h; simp [Except.map] at h
      | ok r0 =>
        rw [hsr] at h
        simp only [Except.map] at h
        cases h
        obtain ⟨ih1, ih2, ih3⟩ := ih r0 hsr
        refine ⟨?_, ?_, ?_⟩
        · intro x
          simp only [List.mem_append, List.mem_cons, List.not_mem_nil, or_false, ih1]
          by_cases hx : x = FSNode.dir es0 rf
          · subst hx; simp [FSNode.isDir]
          · simp [hx]
        · intro p c mf hf hmem
          rcases List.mem_cons.mp hmem with hcon | hmem2
          · cases hcon
          · exact ih2 p c mf hf hmem2
        · intro frp frc frh
          rw [ih3]
          simp [List.mem_cons]
    | .file p0 c0 mf0 hf0 =>
      simp only [scanEntries] at h
      by_cases hmf : mf0
      · rw [if_pos hmf] at h; cases h
      · rw [if_neg hmf] at h
        cases hsr : scanEntries rest with
        | error e0 => rw [hsr] at h; simp [Except.map] at h
        | ok r0 =>
          rw [hsr] at h
          simp only [Except.map] at h
          cases h
          obtain ⟨ih1, ih2, ih3⟩ := ih r0 hsr
          have hmf0 : mf0 = false := Bool.eq_false_iff.mpr hmf
          subst hmf0
          refine ⟨?_, ?_, ?_⟩
          · intro x
            rw [ih1]
            simp only [List.mem_cons]
            by_cases hx : x = FSNode.file p0 c0 false hf0
            · subst hx; simp [FSNode.isDir]
            · simp [hx]
          · intro p c mf hf hmem
            rcases List.mem_cons.mp hmem with hcon | hmem2
            · simp only [FSNode.file.injEq] at hcon
              exact hcon.2.2.1
            · exact ih2 p c mf hf hmem2
          · intro frp frc frh
            by_cases hlen : 1024 < c0.length
            · rw [if_pos hlen]
              simp only [List.mem_append, List.mem_cons, List.not_mem_nil, or_false,
                FileRef.mk.injEq, FSNode.file.injEq, ih3]
              constructor
              · rintro (⟨rfl, rfl, rfl⟩ | ⟨hx, hd⟩)
                · exact ⟨Or.inl ⟨rfl, rfl, trivial, rfl⟩, hlen⟩
                · exact ⟨Or.inr hx, hd⟩
              · rintro ⟨⟨rfl, rfl, hmf, rfl⟩ | hx, hd⟩
                · exact Or.inl ⟨rfl, rfl, rfl⟩
                · exact Or.inr ⟨hx, hd⟩
            · rw [if_neg hlen]
              simp only [List.nil_append, List.mem_cons, FSNode.file.injEq, ih3]
              constructor
              · rintro ⟨hx, hd⟩
                exact ⟨Or.inr hx, hd⟩
              · rintro ⟨⟨rfl, rfl, hmf, rfl⟩ | hx, hd⟩
                · exact absurd hd hlen
                · exact ⟨hx, hd⟩
    | .special =>
      simp only [scanEntries] at h
      obtain ⟨ih1, ih2, ih3⟩ := ih r h
      refine ⟨?_, ?_, ?_⟩
      · intro x
        rw [ih1]
        simp only [List.mem_cons]
        constructor
        · rintro ⟨hx, hd⟩
          exact ⟨Or.inr hx, hd⟩
        · rintro ⟨rfl | hx, hd⟩
          · simp [FSNode.isDir] at hd
          · exact ⟨hx, hd⟩
      · intro p c mf hf hmem
        rcases List.mem_cons.mp hmem with hcon | hmem2
        · cases hcon
        · exact ih2 p c mf hf hmem2
      · intro frp frc frh
        rw [ih3]
        simp only [List.mem_cons]
        constructor
        · rintro ⟨hx, hd⟩
          exact ⟨Or.inr hx, hd⟩
        · rintro ⟨hcon | hx, hd⟩
          · cases hcon
          · exact ⟨hx, hd⟩

theorem walkStack_ok_char (stack : List FSNode) (files : List FileRef)
    (h : walkStack stack = .ok files) (frp : PathB) (frc : List Nat) (frh : Bool) :
    (⟨frp, frc, frh⟩ : FileRef) ∈ files ↔
      (FSNode.file frp frc false frh ∈ filesInList stack ∧ 1024 < frc.length) := by
  match stack with
  | [] =>
    simp only [walkStack] at h
    cases h
    simp [filesInList]
  | .file p c mf hf :: rest =>
    simp only [walkStack] at h
    simp at h
  | .special :: rest =>
    simp only [walkStack] at h
    simp at h
  | .dir es rf :: rest =>
    rw [walkStack] at h
    by_cases hrf : rf
    · rw [if_pos hrf] at h
      simp at h
    · rw [if_neg hrf] at h
      cases hse : scanEntries es with
      | error e0 =>
        rw [hse] at h
        simp at h
      | ok r =>
        rw [hse] at h
        simp only [] at h
        cases hws : walkStack (r.1 ++ rest) with
        | error e1 =>
          rw [hws] at h
          simp at h
        | ok more =>
          rw [hws] at h
          simp only [Except.ok.injEq] at h
          subst h
          obtain ⟨se1, se2, se3⟩ := scanEntries_ok_char es r hse
          have ihrec := walkStack_ok_char (r.1 ++ rest) more hws frp frc frh
          constructor
          · intro hmem
            rcases List.mem_append.mp hmem with hin | hin
            · obtain ⟨hnode, hlen⟩ := (se3 frp frc frh).mp hin
              refine ⟨?_, hlen⟩
              simp only [filesInList, FSNode.filesIn, List.mem_append]
              left
              exact (mem_filesInList _ es).mpr ⟨_, hnode, by simp [FSNode.filesIn]⟩
            · obtain ⟨hnode, hlen⟩ := ihrec.mp hin
              rw [filesInList_append] at hnode
              rcases List.mem_append.mp hnode with hn | hn
              · obtain ⟨e, he1, he2⟩ := (mem_filesInList _ r.1).mp hn
                obtain ⟨hees, hd⟩ := (se1 e).mp he1
                refine ⟨?_, hlen⟩
                simp only [filesInList, FSNode.filesIn, List.mem_append]
                left
                exact (mem_filesInList _ es).mpr ⟨e, hees, he2⟩
              · refine ⟨?_, hlen⟩
                simp only [filesInList, FSNode.filesIn, List.mem_append]
                right
                exact hn
          · rintro ⟨hnode, hlen⟩
            simp only [filesInList, FSNode.filesIn, List.mem_append] at hnode
            rcases hnode with hn | hn
            · obtain ⟨e, he1, he2⟩ := (mem_filesInList _ es).mp hn
              cases e with
              | file p c mf hf =>
                simp only [FSNode.filesIn, List.mem_singleton] at he2
                simp only [FSNode.file.injEq] at he2
                obtain ⟨hp, hc, hm, hh⟩ := he2
                subst hp
                subst hc
                subst hh
                rw [← hm] at he1
                exact List.mem_append.mpr (Or.inl ((se3 frp frc frh).mpr ⟨he1, hlen⟩))
              | dir es1 rf1 =>
                have her1 : FSNode.dir es1 rf1 ∈ r.1 := (se1 _).mpr ⟨he1, rfl⟩
                have hnode2 : FSNode.file frp frc false frh ∈ filesInList (r.1 ++ rest) := by
                  rw [filesInList_append]
                  exact List.mem_append.mpr
                    (Or.inl ((mem_filesInList _ r.1).mpr ⟨_, her1, he2⟩))
                exact List.mem_append.mpr (Or.inr (ihrec.mpr ⟨hnode2, hlen⟩))
              | special => simp [FSNode.filesIn] at he2
            · have hnode2 : FSNode.file frp frc false frh ∈ filesInList (r.1 ++ rest) := by
                rw [filesInList_append]
                exact List.mem_append.mpr (Or.inr hn)
              exact List.mem_append.mpr (Or.inr (ihrec.mpr ⟨hnode2, hlen⟩))
termination_by sizeListN stack
decreasing_by
  rw [sizeListN_append]
  have hle := scanEntries_size es r hse
  simp [sizeListN, FSNode.sizeN]
  omega

theorem fingerprintAll_counter (digest : List Nat → Nat) (files : List FileRef) :
    (fingerprintAll digest files).2.1 = files.length := by
  induction files with
  | nil => rfl
  | cons fr rest ih =>
    simp only [fingerprintAll]
    cases tryHash digest fr <;> simp [ih]

theorem fingerprintAll_append (digest : List Nat → Nat) (a b : List FileRef) :
    (fingerprintAll digest (a ++ b)).1
      = (fingerprintAll digest a).1 ++ (fingerprintAll digest b).1
    ∧ (fingerprintAll digest (a ++ b)).2.2
      = (fingerprintAll digest a).2.2 ++ (fingerprintAll digest b).2.2 := by
  induction a with
  | nil => simp [fingerprintAll]
  | cons fr rest ih =>
    simp only [List.cons_append, fingerprintAll]
    cases tryHash digest fr <;> simp [ih.1, ih.2]

theorem fingerprintAll_pairs_mem (digest : List Nat → Nat) (files : List FileRef)
    (pr : Fingerprint × PathB) :
    pr ∈ (fingerprintAll digest files).1 ↔
      ∃ fr ∈ files, tryHash digest fr = some pr.1 ∧ fr.path = pr.2 := by
  induction files with
  | nil => simp [fingerprintAll]
  | cons fr rest ih =>
    simp only [fingerprintAll]
    cases htr : tryHash digest fr with
    | some fp =>
      simp only [List.mem_cons, ih]
      constructor
      · rintro (rfl | ⟨x, hx, hsx, hpx⟩)
        · exact ⟨fr, by simp, by simp [htr]⟩
        · exact ⟨x, by simp [hx], hsx, hpx⟩
      · rintro ⟨x, hx, hsx, hpx⟩
        rcases hx with rfl | hx2
        · rw [htr] at hsx
          left
          obtain ⟨pr1, pr2⟩ := pr
          simp only [Option.some.injEq] at hsx
          simp only [Prod.mk.injEq]
          exact ⟨hsx.symm, hpx.symm⟩
        · exact Or.inr ⟨x, hx2, hsx, hpx⟩
    | none =>
      rw [ih]
      constructor
      · rintro ⟨x, hx, hsx, hpx⟩
        exact ⟨x, by simp [hx], hsx, hpx⟩
      · rintro ⟨x, hx, hsx, hpx⟩
        rcases List.mem_cons.mp hx with rfl | hx2
        · rw [htr] at hsx
          cases hsx
        · exact ⟨x, hx2, hsx, hpx⟩

theorem fingerprintAll_errors_mem (digest : List Nat → Nat) (files : List FileRef)
    (p : PathB) :
    p ∈ (fingerprintAll digest files).2.2 ↔
      ∃ fr ∈ files, tryHash digest fr = none ∧ fr.path = p := by
  induction files with
  | nil => simp [fingerprintAll]
  | cons fr rest ih =>
    simp only [fingerprintAll]
    cases htr : tryHash digest fr with
    | some fp =>
      rw [ih]
      constructor
      · rintro ⟨x, hx, hsx, hpx⟩
        exact ⟨x, by simp [hx], hsx, hpx⟩
      · rintro ⟨x, hx, hsx, hpx⟩
        rcases List.mem_cons.mp hx with rfl | hx2
        · rw [htr] at hsx
          cases hsx
        · exact ⟨x, hx2, hsx, hpx⟩
    | none =>
      simp only [List.mem_cons, ih]
      constructor
      · rintro (rfl | ⟨x, hx, hsx, hpx⟩)
        · exact ⟨fr, by simp, htr, rfl⟩
        · exact ⟨x, by simp [hx], hsx, hpx⟩
      · rintro ⟨x, hx, hsx, hpx⟩
        rcases hx with rfl | hx2
        · exact Or.inl hpx.symm
        · exact Or.inr ⟨x, hx2, hsx, hpx⟩

theorem walkStack_ok_noMetaFail (stack : List FSNode) (files : List FileRef)
    (h : walkStack stack = .ok files) (p : PathB) (c : List Nat) (mf hf : Bool)
    (hmem : FSNode.file p c mf hf ∈ filesInList stack) : mf = false := by
  match stack with
  | [] => simp [filesInList] at hmem
  | .file p1 c1 mf1 hf1 :: rest =>
    simp only [walkStack] at h
    simp at h
  | .special :: rest =>
    simp only [walkStack] at h
    simp at h
  | .dir es rf :: rest =>
    rw [walkStack] at h
    by_cases hrf : rf
    · rw [if_pos hrf] at h
      simp at h
    · rw [if_neg hrf] at h
      cases hse : scanEntries es with
      | error e0 =>
        rw [hse] at h
        simp at h
      | ok r =>
        rw [hse] at h
        simp only [] at h
        cases hws : walkStack (r.1 ++ rest) with
        | error e1 =>
          rw [hws] at h
          simp at h
        | ok more =>
          obtain ⟨se1, se2, se3⟩ := scanEntries_ok_char es r hse
          simp only [filesInList, FSNode.filesIn, List.mem_append] at hmem
          rcases hmem with hn | hn
          · obtain ⟨e, he1, he2⟩ := (mem_filesInList _ es).mp hn
            cases e with
            | file p1 c1 mf1 hf1 =>
              simp only [FSNode.filesIn, List.mem_singleton, FSNode.file.injEq] at he2
              obtain ⟨hp, hc, hm, hh⟩ := he2
              rw [hm]
              exact se2 p1 c1 mf1 hf1 he1
            | dir es1 rf1 =>
              have her1 : FSNode.dir es1 rf1 ∈ r.1 := (se1 _).mpr ⟨he1, rfl⟩
              have hmem2 : FSNode.file p c mf hf ∈ filesInList (r.1 ++ rest) := by
                rw [filesInList_append]
                exact List.mem_append.mpr
                  (Or.inl ((mem_filesInList _ r.1).mpr ⟨_, her1, he2⟩))
              exact walkStack_ok_noMetaFail (r.1 ++ rest) more hws p c mf hf hmem2
            | special => simp [FSNode.filesIn] at he2
          · have hmem2 : FSNode.file p c mf hf ∈ filesInList (r.1 ++ rest) := by
              rw [filesInList_append]
              exact List.mem_append.mpr (Or.inr hn)
            exact walkStack_ok_noMetaFail (r.1 ++ rest) more hws p c mf hf hmem2
termination_by sizeListN stack
decreasing_by
  all_goals
    rw [sizeListN_append]
    have hle := scanEntries_size es r hse
    simp [sizeListN, FSNode.sizeN]
    omega

/-- Path of a file node (irrelevant default on non-file nodes). -/
def pathOf : FSNode → PathB
  | .file p _ _ _ => p
  | _ => 0

/-- C4: every file of size at most 1024 bytes is excluded from the
candidate list and never appears in any group of the index; every regular
file strictly larger than 1024 bytes passes the filter. -/
theorem claim_C4 (digest : List Nat → Nat) (root : FSNode) (files : List FileRef)
    (hw : walkStack [root] = .ok files)
    (hnd : ((filesInList [root]).map pathOf).Nodup) :
    (∀ fr ∈ files, 1024 < fr.content.length)
    ∧ (∀ p c mf hf, FSNode.file p c mf hf ∈ filesInList [root] →
        1024 < c.length → (⟨p, c, hf⟩ : FileRef) ∈ files)
    ∧ (∀ p c mf hf, FSNode.file p c mf hf ∈ filesInList [root] → c.length ≤ 1024 →
        (∀ fr ∈ files, fr.path ≠ p)
        ∧ ∀ fp, p ∉ buildIndex (fingerprintAll digest files).1 fp) := by
  refine ⟨?_, ?_, ?_⟩
  · intro fr hfr
    exact ((walkStack_ok_char [root] files hw fr.path fr.content fr.hashFail).mp hfr).2
  · intro p c mf hf hmem hlen
    have hmf : mf = false := walkStack_ok_noMetaFail [root] files hw p c mf hf hmem
    subst hmf
    exact (walkStack_ok_char [root] files hw p c hf).mpr ⟨hmem, hlen⟩
  · intro p c mf hf hmem hlen
    have hnotin : ∀ fr ∈ files, fr.path ≠ p := by
      intro fr hfr hpath
      obtain ⟨hnode, hflen⟩ :=
        (walkStack_ok_char [root] files hw fr.path fr.content fr.hashFail).mp hfr
      have heq : FSNode.file fr.path fr.content false fr.hashFail
          = FSNode.file p c mf hf := by
        apply List.inj_on_of_nodup_map hnd hnode hmem
        simp [pathOf, hpath]
      have hceq : fr.content = c := by
        injection heq with e1 e2 e3 e4
      rw [hceq] at hflen
      omega
    refine ⟨hnotin, ?_⟩
    intro fp hin
    rw [buildIndex_eq] at hin
    obtain ⟨pr, hprf, hprp⟩ := List.mem_map.mp hin
    obtain ⟨fr, hfr, htr2, hfrp⟩ :=
      (fingerprintAll_pairs_mem digest files pr).mp (List.mem_filter.mp hprf).1
    exact hnotin fr hfr (by rw [hfrp, hprp])

/-- A directory with one 2000-byte file and one 500-byte file. -/
def treeC4 : FSNode :=
  .dir [.file 1 (List.replicate 2000 3) false false,
        .file 2 (List.replicate 500 4) false false] false

/-- The candidate list the walk produces for treeC4. -/
def wfilesC4 : List FileRef := [⟨1, List.replicate 2000 3, false⟩]

theorem claim_C4_witness :
    ((⟨1, List.replicate 2000 3, false⟩ : FileRef) ∈ wfilesC4)
    ∧ (∀ fr ∈ wfilesC4, fr.path ≠ 2) := by
  have hlen1 : 1024 < (List.replicate 2000 (3:Nat)).length := by
    rw [List.length_replicate]; norm_num
  have hlen2 : ¬ (1024 < (List.replicate 500 (4:Nat)).length) := by
    rw [List.length_replicate]; norm_num
  have hse : scanEntries [FSNode.file 1 (List.replicate 2000 3) false false,
      FSNode.file 2 (List.replicate 500 4) false false] = .ok ([], wfilesC4) := by
    simp only [scanEntries, Except.map, hlen1, hlen2, if_true, if_false,
      ite_true, ite_false, List.nil_append, List.append_nil, wfilesC4,
      Bool.false_eq_true]
  have hnil : walkStack (([] : List FSNode) ++ []) = .ok [] := by
    show walkStack [] = .ok []
    rw [walkStack]
  have hw : walkStack [treeC4] = .ok wfilesC4 := by
    show walkStack [FSNode.dir [FSNode.file 1 (List.replicate 2000 3) false false,
      FSNode.file 2 (List.replicate 500 4) false false] false] = .ok wfilesC4
    rw [walkStack, if_neg (by simp : ¬ (false = true)), hse]
    simp only []
    rw [hnil]
    simp only []
    rw [List.append_nil]
  have hnd : ((filesInList [treeC4]).map pathOf).Nodup := by
    show ((filesInList [FSNode.dir [FSNode.file 1 (List.replicate 2000 3) false false,
      FSNode.file 2 (List.replicate 500 4) false false] false]).map pathOf).Nodup
    simp only [filesInList, FSNode.filesIn, List.append_nil, List.nil_append,
      List.map_append, List.map_cons, List.map_nil, pathOf]
    decide
  have hmem1 : FSNode.file 1 (List.replicate 2000 3) false false ∈ filesInList [treeC4] := by
    simp only [treeC4, filesInList, FSNode.filesIn, List.append_nil, List.nil_append]
    exact List.mem_append.mpr (Or.inl (List.mem_singleton.mpr rfl))
  have hmem2 : FSNode.file 2 (List.replicate 500 4) false false ∈ filesInList [treeC4] := by
    simp only [treeC4, filesInList, FSNode.filesIn, List.append_nil, List.nil_append]
    exact List.mem_append.mpr (Or.inr (List.mem_singleton.mpr rfl))
  have hc := claim_C4 digest0 treeC4 wfilesC4 hw hnd
  refine ⟨?_, ?_⟩
  · exact hc.2.1 1 (List.replicate 2000 3) false false hmem1 hlen1
  · exact (hc.2.2 2 (List.replicate 500 4) false false hmem2 (by
      rw [List.length_replicate]; norm_num)).1

/-- The final filter of main: keep exactly the groups with more than one
path. -/
def duplicate_sets (entries : List (Fingerprint × List PathB)) :
    List (Fingerprint × List PathB) :=
  entries.filter (fun e => decide (1 < e.2.length))

/-- C6: exactly the groups with at least two paths are reported; singleton
groups are discarded. -/
theorem claim_C6 (entries : List (Fingerprint × List PathB))
    (g : Fingerprint × List PathB) :
    g ∈ duplicate_sets entries ↔ (g ∈ entries ∧ 2 ≤ g.2.length) := by
  rw [duplicate_sets, List.mem_filter]
  constructor
  · rintro ⟨h1, h2⟩
    have h3 := of_decide_eq_true h2
    exact ⟨h1, by omega⟩
  · rintro ⟨h1, h2⟩
    exact ⟨h1, decide_eq_true (by omega)⟩

/-- C7: when fingerprinting one file fails, that file is excluded from all
groups, its path is reported, the progress counter still counts it, and the
pairs produced for all other files are unchanged. -/
theorem claim_C7 (digest : List Nat → Nat) (l1 l2 : List FileRef) (f : FileRef)
    (hfail : tryHash digest f = none)
    (hpath : ∀ fr ∈ l1 ++ l2, fr.path ≠ f.path) :
    (fingerprintAll digest (l1 ++ f :: l2)).1 = (fingerprintAll digest (l1 ++ l2)).1
    ∧ (fingerprintAll digest (l1 ++ f :: l2)).2.1 = (l1 ++ f :: l2).length
    ∧ f.path ∈ (fingerprintAll digest (l1 ++ f :: l2)).2.2
    ∧ ∀ fp, f.path ∉ buildIndex (fingerprintAll digest (l1 ++ f :: l2)).1 fp := by
  have hpairs : (fingerprintAll digest (l1 ++ f :: l2)).1
      = (fingerprintAll digest (l1 ++ l2)).1 := by
    rw [(fingerprintAll_append digest l1 (f :: l2)).1,
      (fingerprintAll_append digest l1 l2).1]
    congr 1
    simp only [fingerprintAll, hfail]
  refine ⟨hpairs, fingerprintAll_counter digest _, ?_, ?_⟩
  · rw [fingerprintAll_errors_mem digest _ f.path]
    exact ⟨f, by simp, hfail, rfl⟩
  · intro fp hin
    rw [hpairs, buildIndex_eq] at hin
    obtain ⟨pr, hprf, hprp⟩ := List.mem_map.mp hin
    obtain ⟨fr, hfr, htr2, hfrp⟩ :=
      (fingerprintAll_pairs_mem digest _ pr).mp (List.mem_filter.mp hprf).1
    exact hpath fr hfr (by rw [hfrp, hprp])

/-- A small healthy file used by the C7 witness. -/
def fileC7a : FileRef := ⟨1, [1, 2], false⟩

/-- A file whose open fails during fingerprinting, used by the C7 witness. -/
def fileC7bad : FileRef := ⟨9, [3], true⟩

theorem claim_C7_witness :
    (fingerprintAll digest0 ([fileC7a] ++ fileC7bad :: [])).1
      = (fingerprintAll digest0 ([fileC7a] ++ [])).1
    ∧ (9 : PathB) ∈ (fingerprintAll digest0 ([fileC7a] ++ fileC7bad :: [])).2.2 := by
  have hc := claim_C7 digest0 [fileC7a] [] fileC7bad (by rfl) (by decide)
  exact ⟨hc.1, hc.2.2.1⟩

mutual

/-- Are all directories in the tree readable (no read_dir failure)? -/
def FSNode.dirsOk : FSNode → Bool
  | .file _ _ _ _ => true
  | .special => true
  | .dir es rf => !rf && dirsOkList es

/-- dirsOk over a list of subtrees. -/
def dirsOkList : List FSNode → Bool
  | [] => true
  | e :: rest => FSNode.dirsOk e && dirsOkList rest

end

/-- A tree with every directory readable whose only failure is a metadata
error on a single file. -/
def badTree : FSNode := .dir [.file 7 [1, 2, 3] true false] false

theorem badTree_walk : walkStack [badTree] = .error () := by
  show walkStack [FSNode.dir [.file 7 [1, 2, 3] true false] false] = .error ()
  rw [walkStack, if_neg (by simp : ¬ (false = true))]
  have hse : scanEntries [FSNode.file 7 [1, 2, 3] true false] = .error () := by
    simp [scanEntries]
  rw [hse]

/-- C8 counterexample: an I/O failure concerning only a single file (its
metadata read during the walk) aborts the whole run even though the root
and every directory are readable. -/
theorem claim_C8_counterexample :
    FSNode.dirsOk badTree = true ∧ scan_directory digest0 badTree = .error () := by
  refine ⟨rfl, ?_⟩
  rw [scan_directory, badTree_walk]

/-- C8 amended: per-file fingerprinting failures never escalate (whenever
the walk completes, the scan returns the aggregate, whatever the hashing
failures), while walk-stage errors, which include the metadata failure of
a single file as well as directory read failures, propagate unmodified. -/
theorem claim_C8_amended (digest : List Nat → Nat) (root : FSNode) :
    (∀ e, walkStack [root] = .error e → scan_directory digest root = .error e)
    ∧ (∀ files, walkStack [root] = .ok files →
        scan_directory digest root =
          .ok (buildIndex (fingerprintAll digest files).1,
               (fingerprintAll digest files).2.1,
               (fingerprintAll digest files).2.2)) := by
  constructor
  · intro e he
    rw [scan_directory, he]
  · intro fs hfs
    rw [scan_directory, hfs]

/-- A tree whose only failure is an open failure on one file during
fingerprinting. -/
def goodTree : FSNode := .dir [.file 3 (List.replicate 2000 5) false true] false

/-- The candidate list of goodTree: one file that will fail hashing. -/
def wfilesC8 : List FileRef := [⟨3, List.replicate 2000 5, true⟩]

theorem claim_C8_witness :
    scan_directory digest0 goodTree =
      .ok (buildIndex (fingerprintAll digest0 wfilesC8).1,
           (fingerprintAll digest0 wfilesC8).2.1,
           (fingerprintAll digest0 wfilesC8).2.2)
    ∧ scan_directory digest0 badTree = .error () := by
  refine ⟨?_, (claim_C8_amended digest0 badTree).1 () badTree_walk⟩
  have hlen : 1024 < (List.replicate 2000 (5:Nat)).length := by
    rw [List.length_replicate]; norm_num
  have hse : scanEntries [FSNode.file 3 (List.replicate 2000 5) false true]
      = .ok ([], wfilesC8) := by
    simp only [scanEntries, Except.map, hlen, if_true, if_false, ite_true,
      ite_false, List.nil_append, List.append_nil, wfilesC8, Bool.false_eq_true]
  have hnil : walkStack (([] : List FSNode) ++ []) = .ok [] := by
    show walkStack [] = .ok []
    rw [walkStack]
  have hw : walkStack [goodTree] = .ok wfilesC8 := by
    show walkStack [FSNode.dir [.file 3 (List.replicate 2000 5) false true] false]
      = .ok wfilesC8
    rw [walkStack, if_neg (by simp : ¬ (false = true)), hse]
    simp only []
    rw [hnil]
    simp only []
    rw [List.append_nil]
  exact (claim_C8_amended digest0 goodTree).2 wfilesC8 hw

/-- The interactive deletion loop over one group's selected paths: delete
each in order; the first failing deletion stops everything, with the paths
deleted before it staying deleted. -/
def deleteLoop (fails : PathB → Bool) : List PathB → List PathB × Option PathB
  | [] => ([], none)
  | p :: rest =>
    if fails p then ([], some p)
    else
      let r := deleteLoop fails rest
      (p :: r.1, r.2)

/-- Interactive deletion over the duplicate groups, each with its selected
paths, in order; a failure in one group stops later groups. -/
def runGroups (fails : PathB → Bool) : List (List PathB) → List PathB × Option PathB
  | [] => ([], none)
  | g :: gs =>
    match deleteLoop fails g with
    | (d, some p) => (d, some p)
    | (d, none) =>
      let r := runGroups fails gs
      (d ++ r.1, r.2)

/-- C10: deletion is not atomic: with selections s1 ++ p :: s2 in one group
where deleting every path of s1 succeeds and deleting p fails, the run
terminates with the error at p, exactly the paths of s1 remain deleted, and
neither s2 nor any later group is processed. -/
theorem claim_C10 (fails : PathB → Bool) (s1 s2 : List PathB) (p : PathB)
    (gs : List (List PathB))
    (h1 : ∀ q ∈ s1, fails q = false) (hp : fails p = true) :
    runGroups fails ((s1 ++ p :: s2) :: gs) = (s1, some p) := by
  have hdl : deleteLoop fails (s1 ++ p :: s2) = (s1, some p) := by
    induction s1 with
    | nil => simp [deleteLoop, hp]
    | cons q rest ih =>
      have hq : fails q = false := h1 q (by simp)
      simp only [List.cons_append, deleteLoop, hq, Bool.false_eq_true, if_false,
        ite_false, List.append_eq]
      rw [ih (fun x hx => h1 x (by simp [hx]))]
  rw [runGroups, hdl]

/-- The failure oracle of the C10 witness: deleting path 5 fails. -/
def failsW : PathB → Bool := fun q => decide (q = 5)

theorem claim_C10_witness :
    runGroups failsW ([4, 5, 6] :: [[7]]) = ([4], some 5) :=
  claim_C10 failsW [4] [6] 5 [[7]] (by decide) (by decide)
